import Mathlib

/-!
# Block preallocation cache (`allocator.go`)

A shallow embedding of the `prealloc` package: the constructor `New`, the
background loop `goPrealloc` as a step function over the cases of its
`select`, and `Close`.

The storage backend (`storage.Object`) is outside the package.  Its answers
are inputs of the model: `New` and `Close` take the backend call as a
function, and the loop's refill case carries the answer of `AllocBlocks` in
the event that selects it.

Go's `int` is modelled by `Int`.  The only arithmetic is
`v.size - len(v.blocks)`, evaluated when `len(v.blocks) < v.size`; with
`0 ≤ len(v.blocks)` the difference lies in `[1, 2^63)` whenever both operands
are machine integers, so no wrap-around can occur.
-/

namespace Prealloc

/-- A `*storage.Block`: the identity of the handle and the logical block
address returned by `LBA()`. -/
structure Block where
  handle : Nat
  lba : Nat
deriving DecidableEq, Repr

/-- A Go `error` value. -/
structure GoError where
  code : Nat
deriving DecidableEq, Repr

/-- The fields of `Allocator` that `New`, `goPrealloc` and `Close` read or
write.  `lifeDone` is the state of `lifeCtx` (true once `lifeCancel` has been
called); `wg` is true while the wait group counts the running `goPrealloc`. -/
structure Allocator where
  lifeDone : Bool
  wg : Bool
  size : Int
  blocks : List Block
deriving DecidableEq, Repr

/-- What a call of `New` does: the value it returns, the sizes it passed to
`AllocBlocks` (in order), and whether it ran `go v.goPrealloc()`. -/
structure NewResult where
  result : Except GoError Allocator
  allocCalls : List Int
  started : Bool

/-- The constructor `New`, lines 32-55.  `allocBlocks n` is the answer of
`object.AllocBlocks(ctx, n)`. -/
def New (allocBlocks : Int → Except GoError (List Block)) : NewResult :=
  let size : Int := 32
  match allocBlocks size with
  | .error err => { result := .error err, allocCalls := [size], started := false }
  | .ok blocks =>
    { result := .ok { lifeDone := false, wg := true, size := size, blocks := blocks }
      allocCalls := [size]
      started := true }

/-- The allocator together with the history of its run: `handed` are the
blocks sent on reply channels (each is the value one `Get` returns), `issued`
the blocks the backend has returned to this allocator, `allocCalls` the sizes
the loop has passed to `AllocBlocks`; all oldest first. -/
structure Sys where
  v : Allocator
  handed : List Block
  issued : List Block
  allocCalls : List Int
deriving DecidableEq, Repr

/-- The state right after a successful `New`. -/
def Sys.init (v : Allocator) : Sys :=
  { v := v, handed := [], issued := v.blocks, allocCalls := [] }

/-- The method `Get`, lines 78-92, as a function of the cases its two selects
take: `offered` is true when the first select sends `replyCh` on
`v.requestCh` and false when it takes `<-v.lifeCtx.Done()`; `reply` is the
block received from `replyCh` in the second select, or `none` when that
select takes `<-v.lifeCtx.Done()`.  The result `none` is the nil block. -/
def Get (offered : Bool) (reply : Option Block) : Option Block :=
  if offered then reply else none

/-- The cases of the `select` in `goPrealloc`, and the call of `lifeCancel`
made by `Close`.  Whether a `Get` is at the rendezvous when the loop selects
is decided by the callers and the scheduler: it is part of the event, not of
the state. -/
inductive Event where
  /-- The case `<-v.lifeCtx.Done()` of the outer select. -/
  | done
  /-- The case `<-allocCh`, with the answer of `AllocBlocks`. -/
  | alloc (r : Except GoError (List Block))
  /-- The case `replyCh := <-requestCh`: a `Get` offered its reply channel.
  `sent` tells which case of the inner select is taken: the send of
  `v.blocks[0]` (true) or `<-v.lifeCtx.Done()` (false). -/
  | request (sent : Bool)
  /-- The call `v.lifeCancel(os.ErrClosed)`. -/
  | cancel

/-- Outcome of one step. -/
inductive StepResult where
  /-- The case cannot be selected in this state. -/
  | disabled
  /-- Run-time panic (index out of range). -/
  | panicked
  | ok (s : Sys)
deriving DecidableEq, Repr

/-- The call `slices.Delete(s, i, j)`: `s` without `s[i:j]`. -/
def slicesDelete {α : Type} (s : List α) (i j : Nat) : List α :=
  s.take i ++ s.drop j

/-- Return from `goPrealloc`: the deferred `v.wg.Done()` runs. -/
def Sys.exit (s : Sys) : Sys :=
  { s with v := { s.v with wg := false } }

/-- One iteration of the `for` loop of `goPrealloc`, lines 103-136, taking the
select case named by the event.  Any case that is ready may be taken: a
`select` with several ready cases picks one of them. -/
def goPreallocStep (s : Sys) (ev : Event) : StepResult :=
  if s.v.wg = false then .disabled else
  let nblocks : Int := s.v.blocks.length
  -- allocCh is readyCh (closed, always ready) when nblocks < v.size, else neverCh
  let allocReady : Bool := decide (nblocks < s.v.size)
  -- requestCh is a fresh channel nobody sends on when the pool is empty
  let requestOpen : Bool := !(s.v.blocks.length == 0)
  match ev with
  | .cancel => .disabled
  | .done => if s.v.lifeDone then .ok s.exit else .disabled
  | .alloc r =>
    if allocReady then
      let n : Int := s.v.size - s.v.blocks.length
      let s1 : Sys := { s with allocCalls := s.allocCalls ++ [n] }
      match r with
      | .error _ => .ok s1.exit
      | .ok bs =>
        .ok { s1 with v := { s1.v with blocks := s1.v.blocks ++ bs }, issued := s1.issued ++ bs }
    else .disabled
  | .request sent =>
    if requestOpen then
      -- the operand v.blocks[0] of the send is evaluated on entering the select
      match s.v.blocks[0]? with
      | none => .panicked
      | some b =>
        if sent then
          .ok { s with v := { s.v with blocks := slicesDelete s.v.blocks 0 1 }
                       handed := s.handed ++ [b] }
        else if s.v.lifeDone then .ok s.exit else .disabled
    else .disabled

/-- The call `v.lifeCancel(os.ErrClosed)`. -/
def lifeCancel (s : Sys) : Sys :=
  { s with v := { s.v with lifeDone := true } }

/-- One step of the system: a cancellation, or an iteration of the loop. -/
def step (s : Sys) (ev : Event) : StepResult :=
  match ev with
  | .cancel => .ok (lifeCancel s)
  | ev => goPreallocStep s ev

/-- Run a schedule of events, stopping at the first one that is disabled or
panics. -/
def run (s : Sys) : List Event → StepResult
  | [] => .ok s
  | ev :: rest =>
    match step s ev with
    | .ok s1 => run s1 rest
    | r => r

/-- The answer carried by the event, if it is a successful `AllocBlocks(n)`
in state `s`, has exactly `n` blocks. -/
def allocExactAt (s : Sys) : Event → Bool
  | .alloc (.ok bs) => decide ((bs.length : Int) = s.v.size - s.v.blocks.length)
  | _ => true

/-- Along the schedule, every successful `AllocBlocks(n)` of the loop returns
exactly `n` blocks. -/
def allocsExact (s : Sys) : List Event → Bool
  | [] => true
  | ev :: rest =>
    allocExactAt s ev &&
    (match step s ev with
     | .ok s1 => allocsExact s1 rest
     | _ => true)

/-- The addresses of a list of blocks. -/
def lbas (blocks : List Block) : List Nat :=
  blocks.map Block.lba

/-- The answer carried by the event, if it is a successful `AllocBlocks` in
state `s`, consists of blocks whose addresses are distinct from each other
and from the address of every block the backend returned before. -/
def allocFreshAt (s : Sys) : Event → Bool
  | .alloc (.ok bs) =>
    decide ((lbas bs).Nodup) && (lbas bs).all (fun a => !((lbas s.issued).contains a))
  | _ => true

/-- Along the schedule, every successful `AllocBlocks` of the loop returns
fresh blocks, see `allocFreshAt`. -/
def allocsFresh (s : Sys) : List Event → Bool
  | [] => true
  | ev :: rest =>
    allocFreshAt s ev &&
    (match step s ev with
     | .ok s1 => allocsFresh s1 rest
     | _ => true)

/-- What a call of `Close` does after `v.wg.Wait()` has returned: the error
it returns, the allocator it leaves, the argument list of its
`CompareAndUpdate` call, the blocks passed to `storage.ReleaseBlocks`, and
whether it wrote the log line. -/
structure CloseResult (ι : Type) where
  err : Option GoError
  v : Allocator
  request : List (Option ι)
  released : List Block
  logged : Bool

/-- Lines 62-73 of `Close`.  `item` is `storage.CompareAndDeleteBlockItem`,
`compareAndUpdate` the answer of `object.CompareAndUpdate` (`none` is a nil
error).  An entry `none` of the request is a nil `*CompareAndUpdateItem`. -/
def reclaim {ι : Type} (item : Block → ι) (compareAndUpdate : List (Option ι) → Option GoError)
    (v : Allocator) : CloseResult ι :=
  -- make([]*storage.CompareAndUpdateItem, len(v.blocks)): len(v.blocks) nil entries
  let cas0 : List (Option ι) := List.replicate v.blocks.length none
  let cas := v.blocks.foldl (fun cas b => cas ++ [some (item b)]) cas0
  let logged := (compareAndUpdate cas).isSome
  { err := none
    v := { v with blocks := [] }
    request := cas
    released := v.blocks
    logged := logged }

/-- The method `Close`, lines 58-74.  `sched` is what the loop does while
`Close` is in `v.wg.Wait()`; the result is `none` when the loop has not
returned at the end of `sched` (the wait is not over) or the schedule cannot
run. -/
def Close {ι : Type} (item : Block → ι) (compareAndUpdate : List (Option ι) → Option GoError)
    (s : Sys) (sched : List Event) : Option (CloseResult ι) :=
  match run (lifeCancel s) sched with
  | .ok s1 => if s1.v.wg = false then some (reclaim item compareAndUpdate s1.v) else none
  | _ => none

/-- The blocks numbered `lo, lo+1, ..., lo+n-1`, block `i` at address `i`. -/
def mkBlocks (lo n : Nat) : List Block :=
  (List.range n).map (fun i => { handle := lo + i, lba := lo + i })

/-- A backend that answers every `AllocBlocks(n)` with `n` blocks at
addresses `0 .. n-1`. -/
def okBackend (n : Int) : Except GoError (List Block) :=
  .ok (mkBlocks 0 n.toNat)

/-- The effect of the refill case with a successful allocation. -/
def Sys.refilled (s : Sys) (bs : List Block) : Sys :=
  { v := { s.v with blocks := s.v.blocks ++ bs }
    handed := s.handed
    issued := s.issued ++ bs
    allocCalls := s.allocCalls ++ [s.v.size - s.v.blocks.length] }

/-- The effect of the refill case with a failed allocation. -/
def Sys.refillFailed (s : Sys) : Sys :=
  { v := { s.v with wg := false }
    handed := s.handed
    issued := s.issued
    allocCalls := s.allocCalls ++ [s.v.size - s.v.blocks.length] }

/-- The effect of a completed serve on a pool `b :: rest`. -/
def Sys.served (s : Sys) (b : Block) (rest : List Block) : Sys :=
  { v := { s.v with blocks := rest }
    handed := s.handed ++ [b]
    issued := s.issued
    allocCalls := s.allocCalls }

/-- The pool bound: `len(v.blocks) ≤ v.size`. -/
def PoolBound (s : Sys) : Prop :=
  (s.v.blocks.length : Int) ≤ s.v.size

/-- No address occurs twice among the blocks handed out followed by the
pool, and each of them was returned by the backend. -/
def Distinct (s : Sys) : Prop :=
  (lbas (s.handed ++ s.v.blocks)).Nodup ∧
    ∀ a ∈ lbas (s.handed ++ s.v.blocks), a ∈ lbas s.issued

/-- The allocator a successful `New` leaves when the backend is `okBackend`. -/
def v32 : Allocator :=
  { lifeDone := false, wg := true, size := 32, blocks := mkBlocks 0 32 }

/-- A schedule: two serves, a refill with two new blocks, a serve, the
cancellation, the exit of the loop. -/
def demoSched : List Event :=
  [.request true, .request true, .alloc (.ok (mkBlocks 100 2)), .request true, .cancel, .done]

/-- A schedule with five serves and refills in between: two serves, a refill
with two new blocks, a serve, a refill with one new block, two serves. -/
def interleavedSched : List Event :=
  [.request true, .request true, .alloc (.ok (mkBlocks 100 2)), .request true,
    .alloc (.ok (mkBlocks 102 1)), .request true, .request true]

/-- The state one serve after a successful `New` with backend `okBackend`. -/
def afterOneGet : Sys :=
  { v := { lifeDone := false, wg := true, size := 32, blocks := mkBlocks 1 31 }
    handed := mkBlocks 0 1
    issued := mkBlocks 0 32
    allocCalls := [] }

/-! ## One step of the loop -/

/-- A `Get` returns a block only if both of its selects took the rendezvous,
and then it returns the block sent on its reply channel. -/
theorem Get_eq_some {offered : Bool} {reply : Option Block} {b : Block}
    (h : Get offered reply = some b) : offered = true ∧ reply = some b := by
  cases offered <;> simp_all [Get]

theorem slicesDelete_head {α : Type} (b : α) (rest : List α) :
    slicesDelete (b :: rest) 0 1 = rest := by
  simp [slicesDelete]

theorem step_cancel (s : Sys) : step s .cancel = .ok (lifeCancel s) := rfl

theorem step_done (s : Sys) :
    step s .done = if s.v.wg = true ∧ s.v.lifeDone = true then .ok s.exit else .disabled := by
  cases hw : s.v.wg <;> cases hd : s.v.lifeDone <;> simp [step, goPreallocStep, hw, hd]

theorem step_alloc_ok (s : Sys) (bs : List Block) :
    step s (.alloc (.ok bs)) =
      if s.v.wg = true ∧ (s.v.blocks.length : Int) < s.v.size then .ok (s.refilled bs)
      else .disabled := by
  cases hw : s.v.wg <;> by_cases hl : (s.v.blocks.length : Int) < s.v.size <;>
    simp [step, goPreallocStep, hw, hl, Sys.refilled]

theorem step_alloc_error (s : Sys) (e : GoError) :
    step s (.alloc (.error e)) =
      if s.v.wg = true ∧ (s.v.blocks.length : Int) < s.v.size then .ok s.refillFailed
      else .disabled := by
  cases hw : s.v.wg <;> by_cases hl : (s.v.blocks.length : Int) < s.v.size <;>
    simp [step, goPreallocStep, hw, hl, Sys.refillFailed, Sys.exit]

theorem step_request_nil (s : Sys) (sent : Bool) (h : s.v.blocks = []) :
    step s (.request sent) = .disabled := by
  cases hw : s.v.wg <;> simp [step, goPreallocStep, hw, h]

theorem step_request_sent (s : Sys) (b : Block) (rest : List Block)
    (h : s.v.blocks = b :: rest) :
    step s (.request true) = if s.v.wg = true then .ok (s.served b rest) else .disabled := by
  cases hw : s.v.wg <;> simp [step, goPreallocStep, hw, h, Sys.served, slicesDelete]

theorem step_request_unsent (s : Sys) (b : Block) (rest : List Block)
    (h : s.v.blocks = b :: rest) :
    step s (.request false) =
      if s.v.wg = true ∧ s.v.lifeDone = true then .ok s.exit else .disabled := by
  cases hw : s.v.wg <;> cases hd : s.v.lifeDone <;> simp [step, goPreallocStep, hw, hd, h]

/-- The transitions of the system: every step that succeeds is one of these. -/
theorem step_ok_cases {s s1 : Sys} {ev : Event} (h : step s ev = .ok s1) :
    (ev = .cancel ∧ s1 = lifeCancel s) ∨
    (s.v.wg = true ∧ s.v.lifeDone = true ∧ s1 = s.exit ∧
      (ev = .done ∨ (ev = .request false ∧ s.v.blocks ≠ []))) ∨
    (s.v.wg = true ∧ (s.v.blocks.length : Int) < s.v.size ∧
      ∃ e, ev = .alloc (.error e) ∧ s1 = s.refillFailed) ∨
    (s.v.wg = true ∧ (s.v.blocks.length : Int) < s.v.size ∧
      ∃ bs, ev = .alloc (.ok bs) ∧ s1 = s.refilled bs) ∨
    (s.v.wg = true ∧ ∃ b rest, ev = .request true ∧ s.v.blocks = b :: rest ∧
      s1 = s.served b rest) := by
  cases ev with
  | cancel =>
    left
    rw [step_cancel] at h
    exact ⟨rfl, (StepResult.ok.inj h).symm⟩
  | done =>
    right; left
    rw [step_done] at h
    split at h
    · rename_i hc
      exact ⟨hc.1, hc.2, (StepResult.ok.inj h).symm, Or.inl rfl⟩
    · cases h
  | alloc r =>
    cases r with
    | error e =>
      right; right; left
      rw [step_alloc_error] at h
      split at h
      · rename_i hc
        exact ⟨hc.1, hc.2, e, rfl, (StepResult.ok.inj h).symm⟩
      · cases h
    | ok bs =>
      right; right; right; left
      rw [step_alloc_ok] at h
      split at h
      · rename_i hc
        exact ⟨hc.1, hc.2, bs, rfl, (StepResult.ok.inj h).symm⟩
      · cases h
  | request sent =>
    cases hb : s.v.blocks with
    | nil =>
      rw [step_request_nil s sent hb] at h
      cases h
    | cons b rest =>
      cases sent with
      | true =>
        right; right; right; right
        rw [step_request_sent s b rest hb] at h
        split at h
        · rename_i hc
          exact ⟨hc, b, rest, rfl, rfl, (StepResult.ok.inj h).symm⟩
        · cases h
      | false =>
        right; left
        rw [step_request_unsent s b rest hb] at h
        split at h
        · rename_i hc
          exact ⟨hc.1, hc.2, (StepResult.ok.inj h).symm, Or.inr ⟨rfl, by simp⟩⟩
        · cases h

/-- No step of the system panics: the read of `v.blocks[0]` is in range
whenever the serve case can be selected. -/
theorem step_ne_panicked (s : Sys) (ev : Event) : step s ev ≠ .panicked := by
  cases ev with
  | cancel => simp [step_cancel]
  | done => rw [step_done]; split <;> simp
  | alloc r =>
    cases r with
    | error e => rw [step_alloc_error]; split <;> simp
    | ok bs => rw [step_alloc_ok]; split <;> simp
  | request sent =>
    cases hb : s.v.blocks with
    | nil => rw [step_request_nil s sent hb]; simp
    | cons b rest =>
      cases sent with
      | true => rw [step_request_sent s b rest hb]; split <;> simp
      | false => rw [step_request_unsent s b rest hb]; split <;> simp

theorem run_nil (s : Sys) : run s [] = .ok s := rfl

theorem run_cons_ok {s s1 : Sys} {ev : Event} (h : step s ev = .ok s1) (rest : List Event) :
    run s (ev :: rest) = run s1 rest := by
  simp [run, h]

/-- A schedule that runs to the end runs its first step. -/
theorem run_cons_inv {s s2 : Sys} {ev : Event} {rest : List Event}
    (h : run s (ev :: rest) = .ok s2) :
    ∃ s1, step s ev = .ok s1 ∧ run s1 rest = .ok s2 := by
  cases hs : step s ev with
  | disabled => simp [run, hs] at h
  | panicked => simp [run, hs] at h
  | ok s1 => exact ⟨s1, rfl, by simpa [run, hs] using h⟩

/-- An invariant that every guarded step preserves holds at the end of every
schedule whose events all pass the guard. -/
theorem run_invariant (P : Sys → Prop) (guard : Sys → Event → Bool)
    (hstep : ∀ s ev s1, P s → guard s ev = true → step s ev = .ok s1 → P s1)
    (guards : Sys → List Event → Bool)
    (hguards : ∀ s ev rest, guards s (ev :: rest) =
      (guard s ev && (match step s ev with
        | .ok s1 => guards s1 rest
        | _ => true)))
    (s : Sys) (sched : List Event) (s2 : Sys)
    (h0 : P s) (hg : guards s sched = true) (hrun : run s sched = .ok s2) : P s2 := by
  induction sched generalizing s with
  | nil =>
    rw [run_nil] at hrun
    cases hrun
    exact h0
  | cons ev rest ih =>
    obtain ⟨s1, hs, hr⟩ := run_cons_inv hrun
    rw [hguards, hs] at hg
    simp only [Bool.and_eq_true] at hg
    exact ih s1 (hstep s ev s1 h0 hg.1 hs) hg.2 hr

/-! ## `New` -/

theorem New_ok_inv {allocBlocks : Int → Except GoError (List Block)} {v : Allocator}
    (h : (New allocBlocks).result = .ok v) :
    ∃ blocks, allocBlocks 32 = .ok blocks ∧
      v = { lifeDone := false, wg := true, size := 32, blocks := blocks } := by
  unfold New at h
  cases hb : allocBlocks 32 with
  | error e => simp [hb] at h
  | ok blocks =>
    simp only [hb] at h
    exact ⟨blocks, rfl, (Except.ok.inj h).symm⟩

/-! ## The pool bound -/

theorem poolBound_step (s : Sys) (ev : Event) (s1 : Sys) (hP : PoolBound s)
    (hg : allocExactAt s ev = true) (hs : step s ev = .ok s1) : PoolBound s1 := by
  unfold PoolBound at *
  rcases step_ok_cases hs with ⟨_, rfl⟩ | ⟨_, _, rfl, _⟩ | ⟨_, _, _, _, rfl⟩ |
    ⟨_, _, bs, rfl, rfl⟩ | ⟨_, b, rest, _, hb, rfl⟩
  · exact hP
  · exact hP
  · exact hP
  · simp only [allocExactAt, decide_eq_true_eq] at hg
    simp only [Sys.refilled, List.length_append, Nat.cast_add]
    omega
  · simp only [Sys.served]
    rw [hb] at hP
    simp only [List.length_cons, Nat.cast_add, Nat.cast_one] at hP
    omega

/-! ## Distinct addresses -/

theorem distinct_step (s : Sys) (ev : Event) (s1 : Sys) (hP : Distinct s)
    (hg : allocFreshAt s ev = true) (hs : step s ev = .ok s1) : Distinct s1 := by
  rcases step_ok_cases hs with ⟨_, rfl⟩ | ⟨_, _, rfl, _⟩ | ⟨_, _, _, _, rfl⟩ |
    ⟨_, _, bs, rfl, rfl⟩ | ⟨_, b, rest, _, hb, rfl⟩
  · exact hP
  · exact hP
  · exact hP
  · obtain ⟨hnd, hsub⟩ := hP
    simp only [allocFreshAt, Bool.and_eq_true, decide_eq_true_eq, List.all_eq_true,
      Bool.not_eq_true', List.contains_eq_any_beq, List.any_eq_false, beq_iff_eq] at hg
    obtain ⟨hbs, hnew⟩ := hg
    have hnew2 : ∀ a ∈ lbas bs, a ∉ lbas s.issued := by
      intro a ha hia
      exact hnew a ha a hia rfl
    have hrw : lbas (s.handed ++ (s.v.blocks ++ bs)) = lbas (s.handed ++ s.v.blocks) ++ lbas bs := by
      simp [lbas]
    constructor
    · show (lbas (s.handed ++ (s.v.blocks ++ bs))).Nodup
      rw [hrw]
      refine List.Nodup.append hnd hbs ?_
      intro a ha hb
      exact hnew2 a hb (hsub a ha)
    · intro a ha
      have ha2 : a ∈ lbas (s.handed ++ s.v.blocks) ++ lbas bs := by
        rw [← hrw]; exact ha
      show a ∈ lbas (s.issued ++ bs)
      have : lbas (s.issued ++ bs) = lbas s.issued ++ lbas bs := by simp [lbas]
      rw [this]
      rcases List.mem_append.mp ha2 with h1 | h2
      · exact List.mem_append.mpr (Or.inl (hsub a h1))
      · exact List.mem_append.mpr (Or.inr h2)
  · have heq : (s.served b rest).handed ++ (s.served b rest).v.blocks = s.handed ++ s.v.blocks := by
      simp [Sys.served, hb]
    unfold Distinct
    rw [heq]
    exact hP

theorem distinct_init (v : Allocator) (h : (lbas v.blocks).Nodup) : Distinct (Sys.init v) := by
  constructor
  · simpa [Sys.init] using h
  · intro a ha
    simpa [Sys.init] using ha

/-! ## Claims about the loop's invariants -/

/-- C3, pool bound.  If the `AllocBlocks(32)` of `New` and every successful
`AllocBlocks(n)` of the loop return exactly as many blocks as requested, then
`0 ≤ len(blocks) ≤ size` holds in the state `New` leaves, is preserved by
every step of the system (refill, serve, cancellation, exit), and so holds
in every state reached from a successful `New`. -/
theorem pool_bound (allocBlocks : Int → Except GoError (List Block)) (v : Allocator)
    (sched : List Event) (s : Sys)
    (hnew : (New allocBlocks).result = .ok v)
    (hinit : ∀ bs, allocBlocks 32 = .ok bs → bs.length = 32)
    (hexact : allocsExact (Sys.init v) sched = true)
    (hrun : run (Sys.init v) sched = .ok s) :
    PoolBound (Sys.init v) ∧
    (∀ t ev t1, PoolBound t → allocExactAt t ev = true → step t ev = .ok t1 → PoolBound t1) ∧
    (0 ≤ (s.v.blocks.length : Int) ∧ (s.v.blocks.length : Int) ≤ s.v.size) := by
  obtain ⟨blocks, hb, rfl⟩ := New_ok_inv hnew
  have h0 : PoolBound (Sys.init { lifeDone := false, wg := true, size := 32, blocks := blocks }) := by
    simp [PoolBound, Sys.init, hinit blocks hb]
  refine ⟨h0, poolBound_step, Int.natCast_nonneg _, ?_⟩
  exact run_invariant PoolBound allocExactAt poolBound_step allocsExact
    (fun _ _ _ => rfl) _ sched s h0 hexact hrun

/-- C2, at-most-once handout.  If the blocks `New` received have distinct
addresses and every successful `AllocBlocks` of the loop returns blocks whose
addresses are distinct from each other and from every address the backend
returned before, then in every state reached from a successful `New` the
blocks handed out so far followed by the pool carry no address twice; in
particular no two blocks handed out have the same address. -/
theorem at_most_once_handout (allocBlocks : Int → Except GoError (List Block))
    (v : Allocator) (sched : List Event) (s : Sys)
    (hnew : (New allocBlocks).result = .ok v)
    (hinit : ∀ bs, allocBlocks 32 = .ok bs → (lbas bs).Nodup)
    (hfresh : allocsFresh (Sys.init v) sched = true)
    (hrun : run (Sys.init v) sched = .ok s) :
    (lbas (s.handed ++ s.v.blocks)).Nodup ∧ (lbas s.handed).Nodup := by
  obtain ⟨blocks, hb, rfl⟩ := New_ok_inv hnew
  have h0 : Distinct (Sys.init { lifeDone := false, wg := true, size := 32, blocks := blocks }) :=
    distinct_init _ (hinit blocks hb)
  have hD : Distinct s :=
    run_invariant Distinct allocFreshAt distinct_step allocsFresh
      (fun _ _ _ => rfl) _ sched s h0 hfresh hrun
  refine ⟨hD.1, ?_⟩
  have h := hD.1
  simp only [lbas, List.map_append] at h
  exact (List.nodup_append.mp h).1

theorem okBackend_32 (bs : List Block) (h : okBackend 32 = .ok bs) : bs = mkBlocks 0 32 := by
  cases h
  rfl

/-- Witness of C3: the bound after the schedule `demoSched`. -/
theorem pool_bound_witness :
    ∃ s, run (Sys.init v32) demoSched = .ok s ∧ PoolBound s :=
  ⟨_, rfl, (pool_bound okBackend v32 demoSched _ rfl
    (fun bs h => by rw [okBackend_32 bs h]; rfl) (by decide) rfl).2.2.2⟩

/-- Witness of C2: distinct addresses after the schedule `demoSched`. -/
theorem at_most_once_handout_witness :
    ∃ s, run (Sys.init v32) demoSched = .ok s ∧
      lbas s.handed = [0, 1, 2] ∧ (lbas (s.handed ++ s.v.blocks)).Nodup :=
  ⟨_, rfl, rfl, (at_most_once_handout okBackend v32 demoSched _ rfl
    (fun bs h => by rw [okBackend_32 bs h]; decide) (by decide) rfl).1⟩

/-! ## After the loop has returned -/

theorem step_dead {s s1 : Sys} {ev : Event} (hw : s.v.wg = false) (h : step s ev = .ok s1) :
    ev = .cancel ∧ s1 = lifeCancel s := by
  rcases step_ok_cases h with hc | ⟨hw1, _⟩ | ⟨hw1, _⟩ | ⟨hw1, _⟩ | ⟨hw1, _⟩
  · exact hc
  all_goals simp [hw] at hw1

theorem step_dead_disabled (s : Sys) (ev : Event) (hw : s.v.wg = false) (hev : ev ≠ .cancel) :
    step s ev = .disabled := by
  cases ev with
  | cancel => exact absurd rfl hev
  | done => simp [step, goPreallocStep, hw]
  | alloc r => simp [step, goPreallocStep, hw]
  | request sent => simp [step, goPreallocStep, hw]

/-- Once the loop has returned, nothing changes but the lifecycle signal. -/
theorem run_dead (s : Sys) (sched : List Event) (s2 : Sys) (hw : s.v.wg = false)
    (h : run s sched = .ok s2) :
    s2.v.wg = false ∧ s2.v.blocks = s.v.blocks ∧ s2.v.size = s.v.size ∧
      s2.handed = s.handed ∧ s2.issued = s.issued ∧ s2.allocCalls = s.allocCalls := by
  induction sched generalizing s with
  | nil =>
    rw [run_nil] at h
    cases h
    exact ⟨hw, rfl, rfl, rfl, rfl, rfl⟩
  | cons ev rest ih =>
    obtain ⟨s1, hs, hr⟩ := run_cons_inv h
    obtain ⟨_, rfl⟩ := step_dead hw hs
    exact ih (lifeCancel s) hw hr

/-! ## Claims about single steps -/

/-- C4, serve step.  The serve case can be selected only when the pool is
non-empty, so the read of `v.blocks[0]` never panics; a completed serve on a
pool `b0 :: rest` hands out exactly `b0` and leaves the pool `rest`; and a
running loop with pool `b0 :: rest` can complete a serve. -/
theorem serve_step (s : Sys) :
    (∀ sent, step s (.request sent) ≠ .disabled → s.v.blocks ≠ []) ∧
    (∀ sent, step s (.request sent) ≠ .panicked) ∧
    (∀ s1, step s (.request true) = .ok s1 →
      ∃ b0 rest, s.v.blocks = b0 :: rest ∧ s1.handed = s.handed ++ [b0] ∧
        s1.v.blocks = rest) ∧
    (∀ b0 rest, s.v.wg = true → s.v.blocks = b0 :: rest →
      ∃ s1, step s (.request true) = .ok s1 ∧ s1.handed = s.handed ++ [b0] ∧
        s1.v.blocks = rest ∧ s1.v.size = s.v.size ∧ s1.allocCalls = s.allocCalls) := by
  refine ⟨?_, fun sent => step_ne_panicked s _, ?_, ?_⟩
  · intro sent h hb
    exact h (step_request_nil s sent hb)
  · intro s1 h
    rcases step_ok_cases h with ⟨hc, _⟩ | ⟨_, _, _, hc | ⟨hc, _⟩⟩ | ⟨_, _, _, hc, _⟩ |
      ⟨_, _, _, hc, _⟩ | ⟨_, b, rest, _, hb, rfl⟩
    · cases hc
    · cases hc
    · cases hc
    · cases hc
    · cases hc
    · exact ⟨b, rest, hb, rfl, rfl⟩
  · intro b0 rest hw hb
    refine ⟨s.served b0 rest, ?_, rfl, rfl, rfl, rfl⟩
    rw [step_request_sent s b0 rest hb, if_pos hw]

/-- C5, refill step.  A running loop can select the refill case exactly when
`len(blocks) < size`; the call then made is `AllocBlocks(size - len(blocks))`
with `size - len(blocks) ≥ 1`; when it succeeds with blocks `bs` the new pool
is the old pool followed by `bs`, of length `size` when `bs` has the
requested length. -/
theorem refill_step (s : Sys) :
    (∀ r, step s (.alloc r) ≠ .disabled ↔
      (s.v.wg = true ∧ (s.v.blocks.length : Int) < s.v.size)) ∧
    (∀ r s1, step s (.alloc r) = .ok s1 →
      s1.allocCalls = s.allocCalls ++ [s.v.size - s.v.blocks.length] ∧
        1 ≤ s.v.size - s.v.blocks.length) ∧
    (∀ bs s1, step s (.alloc (.ok bs)) = .ok s1 →
      s1.v.blocks = s.v.blocks ++ bs ∧ s1.v.size = s.v.size ∧ s1.handed = s.handed ∧
        ((bs.length : Int) = s.v.size - s.v.blocks.length →
          (s1.v.blocks.length : Int) = s.v.size)) := by
  refine ⟨?_, ?_, ?_⟩
  · intro r
    cases r with
    | error e =>
      rw [step_alloc_error]
      split <;> simp_all
    | ok bs =>
      rw [step_alloc_ok]
      split <;> simp_all
  · intro r s1 h
    cases r with
    | error e =>
      rw [step_alloc_error] at h
      split at h
      · rename_i hc
        cases h
        exact ⟨rfl, by have := hc.2; omega⟩
      · cases h
    | ok bs =>
      rw [step_alloc_ok] at h
      split at h
      · rename_i hc
        cases h
        exact ⟨rfl, by have := hc.2; omega⟩
      · cases h
  · intro bs s1 h
    rw [step_alloc_ok] at h
    split at h
    · cases h
      refine ⟨rfl, rfl, rfl, ?_⟩
      intro hlen
      simp only [Sys.refilled, List.length_append, Nat.cast_add]
      omega
    · cases h

/-- C10, refill failure.  When the refill case is taken and `AllocBlocks`
fails, the loop returns, leaving the pool, the blocks handed out and the
lifecycle signal as they were (so an allocator that was not closed is still
not closed); in every state reached afterwards the loop is still stopped, the
pool and the blocks handed out are unchanged, no further `AllocBlocks` call
has been made, and neither the refill case nor the serve case can be
selected. -/
theorem refill_failure_terminal (s : Sys) (e : GoError) (s1 : Sys)
    (h : step s (.alloc (.error e)) = .ok s1) :
    s1.v.wg = false ∧ s1.v.blocks = s.v.blocks ∧ s1.handed = s.handed ∧
    s1.v.lifeDone = s.v.lifeDone ∧ (s.v.lifeDone = false → s1.v.lifeDone = false) ∧
    (∀ sched s2, run s1 sched = .ok s2 →
      s2.v.wg = false ∧ s2.v.blocks = s.v.blocks ∧ s2.handed = s.handed ∧
      s2.allocCalls = s1.allocCalls ∧
      (∀ r, step s2 (.alloc r) = .disabled) ∧
      (∀ sent, step s2 (.request sent) = .disabled)) := by
  rw [step_alloc_error] at h
  split at h
  · cases h
    refine ⟨rfl, rfl, rfl, rfl, fun hd => hd, ?_⟩
    intro sched s2 hr
    obtain ⟨hw, hb, _, hh, _, hc⟩ := run_dead s.refillFailed sched s2 rfl hr
    refine ⟨hw, hb, hh, hc, ?_, ?_⟩
    · intro r
      exact step_dead_disabled s2 _ hw (by simp)
    · intro sent
      exact step_dead_disabled s2 _ hw (by simp)
  · cases h

/-- Witness of C10: after one serve, a failing refill stops the loop and
leaves the 31 cached blocks and an open lifecycle signal. -/
theorem refill_failure_terminal_witness :
    run (Sys.init v32) [.request true] = .ok afterOneGet ∧
    step afterOneGet (.alloc (.error { code := 1 })) = .ok afterOneGet.refillFailed ∧
      afterOneGet.refillFailed.v.wg = false ∧
      afterOneGet.refillFailed.v.blocks = afterOneGet.v.blocks ∧
      afterOneGet.refillFailed.v.lifeDone = false :=
  ⟨by decide, rfl,
    (refill_failure_terminal afterOneGet { code := 1 } afterOneGet.refillFailed rfl).1,
    (refill_failure_terminal afterOneGet { code := 1 } afterOneGet.refillFailed rfl).2.1,
    (refill_failure_terminal afterOneGet { code := 1 } afterOneGet.refillFailed rfl).2.2.2.2.1 rfl⟩

/-! ## `New` and `Close` -/

/-- C7, `New`.  `New` makes exactly one backend call, `AllocBlocks(32)`.  It
returns an error exactly when that call fails; it then returns the error of
the call and no allocator, and does not start the loop.  When the call
succeeds it starts the loop and returns an allocator of size 32 whose pool is
the list of blocks the backend returned, so 32 blocks with distinct addresses
when the backend returned that. -/
theorem New_contract (allocBlocks : Int → Except GoError (List Block)) :
    (New allocBlocks).allocCalls = [32] ∧
    ((∃ err, (New allocBlocks).result = .error err) ↔ ∃ err, allocBlocks 32 = .error err) ∧
    (∀ err, allocBlocks 32 = .error err →
      (New allocBlocks).result = .error err ∧ (New allocBlocks).started = false) ∧
    (∀ blocks, allocBlocks 32 = .ok blocks →
      (New allocBlocks).started = true ∧
      ∃ v, (New allocBlocks).result = .ok v ∧ v.size = 32 ∧ v.blocks = blocks ∧
        v.lifeDone = false ∧ v.wg = true ∧ (Sys.init v).handed = [] ∧
        (blocks.length = 32 → (lbas blocks).Nodup →
          v.blocks.length = 32 ∧ (lbas v.blocks).Nodup)) := by
  cases hb : allocBlocks 32 with
  | error e =>
    have hN : New allocBlocks = { result := .error e, allocCalls := [32], started := false } := by
      simp [New, hb]
    rw [hN]
    simp
  | ok blocks =>
    have hN : New allocBlocks =
        { result := .ok { lifeDone := false, wg := true, size := 32, blocks := blocks }
          allocCalls := [32], started := true } := by
      simp [New, hb]
    rw [hN]
    refine ⟨rfl, by simp, by simp, ?_⟩
    intro bs h
    cases h
    exact ⟨rfl, _, rfl, rfl, rfl, rfl, rfl, rfl, fun h1 h2 => ⟨h1, h2⟩⟩

/-- The argument list `Close` builds: `len(v.blocks)` nil entries followed by
one item per cached block. -/
theorem reclaim_request {ι : Type} (item : Block → ι)
    (compareAndUpdate : List (Option ι) → Option GoError) (v : Allocator) :
    (reclaim item compareAndUpdate v).request =
      List.replicate v.blocks.length none ++ v.blocks.map (fun b => some (item b)) := by
  have key : ∀ (bs : List Block) (acc : List (Option ι)),
      bs.foldl (fun cas b => cas ++ [some (item b)]) acc =
        acc ++ bs.map (fun b => some (item b)) := by
    intro bs
    induction bs with
    | nil => intro acc; simp
    | cons b rest ih => intro acc; simp [List.foldl_cons, ih]
  simp [reclaim, key]

/-- C8, `Close`.  Whatever the pool holds, whatever the loop does while
`Close` waits for it and whatever `CompareAndUpdate` answers, a `Close` that
returns returns nil and leaves the pool empty; and there is a schedule of the
loop under which `Close` returns. -/
theorem Close_returns_nil {ι : Type} (item : Block → ι)
    (compareAndUpdate : List (Option ι) → Option GoError) (s : Sys) :
    (∀ sched r, Close item compareAndUpdate s sched = some r →
      r.err = none ∧ r.v.blocks = []) ∧
    (∃ sched r, Close item compareAndUpdate s sched = some r) := by
  constructor
  · intro sched r h
    unfold Close at h
    split at h
    · split at h
      · cases h
        exact ⟨rfl, rfl⟩
      · cases h
    · cases h
  · cases hw : s.v.wg with
    | false =>
      refine ⟨[], reclaim item compareAndUpdate (lifeCancel s).v, ?_⟩
      simp [Close, run, lifeCancel, hw]
    | true =>
      refine ⟨[.done], reclaim item compareAndUpdate (lifeCancel s).exit.v, ?_⟩
      have hs : step (lifeCancel s) .done = .ok (lifeCancel s).exit := by
        rw [step_done]
        simp [lifeCancel, hw]
      simp [Close, run, hs, Sys.exit]

/-- C1, at the state a successful `New` leaves (pool of 32 blocks): the one
`CompareAndUpdate` call of `Close` gets 64 entries, 32 nil entries followed
by the 32 items of the cached blocks, not 32 items. -/
theorem Close_request_after_New :
    (Close id (fun _ => none) (Sys.init v32) [.done]).map (fun r => r.request) =
      some (List.replicate 32 none ++ (mkBlocks 0 32).map some) ∧
    (Close id (fun _ => none) (Sys.init v32) [.done]).map (fun r => r.request.length) =
      some 64 := by
  constructor <;> rfl

/-! ## Sequential serves -/

/-- Running `k` serves in a row hands out the first `k` blocks of the pool, in order. -/
theorem run_serves (k : Nat) (s : Sys) (hw : s.v.wg = true) (hk : k ≤ s.v.blocks.length) :
    run s (List.replicate k (.request true)) =
      .ok { v := { s.v with blocks := s.v.blocks.drop k }
            handed := s.handed ++ s.v.blocks.take k
            issued := s.issued
            allocCalls := s.allocCalls } := by
  induction k generalizing s with
  | zero => simp [run]
  | succ k ih =>
    cases hb : s.v.blocks with
    | nil => simp [hb] at hk
    | cons b rest =>
      have hs : step s (.request true) = .ok (s.served b rest) := by
        rw [step_request_sent s b rest hb, if_pos hw]
      rw [List.replicate_succ, run_cons_ok hs]
      have hk1 : k ≤ (s.served b rest).v.blocks.length := by
        rw [hb] at hk
        simpa [Sys.served] using hk
      rw [ih (s.served b rest) hw hk1]
      simp [Sys.served]

/-- The blocks handed out followed by the pool are the blocks the backend has
returned, in the order it returned them; a step only adds to the end of
them. -/
theorem fifo_step {s s1 : Sys} {ev : Event} (h0 : s.handed ++ s.v.blocks = s.issued)
    (hs : step s ev = .ok s1) :
    s1.handed ++ s1.v.blocks = s1.issued ∧ ∃ extra, s1.issued = s.issued ++ extra := by
  rcases step_ok_cases hs with ⟨_, rfl⟩ | ⟨_, _, rfl, _⟩ | ⟨_, _, _, _, rfl⟩ |
    ⟨_, _, bs, _, rfl⟩ | ⟨_, b, rest, _, hb, rfl⟩
  · exact ⟨h0, [], by simp [lifeCancel]⟩
  · exact ⟨h0, [], by simp [Sys.exit]⟩
  · exact ⟨h0, [], by simp [Sys.refillFailed]⟩
  · refine ⟨?_, bs, rfl⟩
    show s.handed ++ (s.v.blocks ++ bs) = s.issued ++ bs
    rw [← List.append_assoc, h0]
  · refine ⟨?_, [], by simp [Sys.served]⟩
    show (s.handed ++ [b]) ++ rest = s.issued
    rw [← h0, hb]
    simp

theorem run_fifo (s : Sys) (sched : List Event) (s2 : Sys)
    (h0 : s.handed ++ s.v.blocks = s.issued) (hrun : run s sched = .ok s2) :
    s2.handed ++ s2.v.blocks = s2.issued ∧ ∃ extra, s2.issued = s.issued ++ extra := by
  induction sched generalizing s with
  | nil =>
    rw [run_nil] at hrun
    cases hrun
    exact ⟨h0, [], by simp⟩
  | cons ev rest ih =>
    obtain ⟨s1, hs, hr⟩ := run_cons_inv hrun
    obtain ⟨h1, e1, he1⟩ := fifo_step h0 hs
    obtain ⟨h2, e2, he2⟩ := ih s1 h1 hr
    exact ⟨h2, e1 ++ e2, by rw [he2, he1, List.append_assoc]⟩

/-- Under every schedule, the first blocks handed out are the first blocks of
the pool `New` left, as long as no more are handed out than it held. -/
theorem run_handed_take (v : Allocator) (sched : List Event) (s : Sys)
    (hrun : run (Sys.init v) sched = .ok s) (hk : s.handed.length ≤ v.blocks.length) :
    s.handed = v.blocks.take s.handed.length := by
  obtain ⟨h1, extra, he⟩ := run_fifo (Sys.init v) sched s (by simp [Sys.init]) hrun
  have h2 : s.handed ++ s.v.blocks = v.blocks ++ extra := by
    rw [h1, he]
    rfl
  have h3 : (s.handed ++ s.v.blocks).take s.handed.length = s.handed := by simp
  rw [h2, List.take_append_of_le_length hk] at h3
  exact h3.symm

/-- C9 as amended, for `1 ≤ k ≤ 32`.  From a successful `New` whose pool is
32 blocks with distinct addresses: under every schedule, once `k` blocks have
been handed out they are the first `k` blocks of that pool (all among the 32,
no address twice).  When the `k` serves are taken in a row, with no refill in
between, the other `32 - k` blocks stay cached and no `AllocBlocks` call has
been made; the only cases the loop can then select are the refill and the
serve of a further `Get`, so with no further `Get` and no `Close` its next
step is the refill; whatever the backend answers, the call is
`AllocBlocks(k)`, the loop's first; when
that call returns `k` blocks with addresses distinct from each other and from
the 32, the pool is the remaining `32 - k` followed by the new blocks: 32
blocks with distinct addresses. -/
theorem sequential_gets (allocBlocks : Int → Except GoError (List Block)) (v : Allocator)
    (k : Nat) (bs : List Block)
    (hnew : (New allocBlocks).result = .ok v)
    (hlen : v.blocks.length = 32) (hnd : (lbas v.blocks).Nodup)
    (hk1 : 1 ≤ k) (hk : k ≤ 32)
    (hbs : bs.length = k) (hbsnd : (lbas bs).Nodup)
    (hfresh : ∀ a ∈ lbas bs, a ∉ lbas v.blocks) :
    (∀ sched s, run (Sys.init v) sched = .ok s → s.handed.length = k →
      s.handed = v.blocks.take k ∧ (∀ b ∈ s.handed, b ∈ v.blocks) ∧
        (lbas s.handed).Nodup) ∧
    ∃ s1, run (Sys.init v) (List.replicate k (.request true)) = .ok s1 ∧
      s1.handed = v.blocks.take k ∧ s1.handed.length = k ∧
      (∀ b ∈ s1.handed, b ∈ v.blocks) ∧ (lbas s1.handed).Nodup ∧
      s1.v.blocks = v.blocks.drop k ∧ s1.v.blocks.length = 32 - k ∧
      s1.allocCalls = [] ∧
      (∀ ev s2, step s1 ev = .ok s2 → ev = .cancel ∨ ev = .request true ∨ ∃ r, ev = .alloc r) ∧
      (∀ r, ∃ s2, step s1 (.alloc r) = .ok s2 ∧ s2.allocCalls = [(k : Int)]) ∧
      ∃ s2, step s1 (.alloc (.ok bs)) = .ok s2 ∧
        s2.v.blocks = v.blocks.drop k ++ bs ∧ s2.v.blocks.length = 32 ∧
        (lbas s2.v.blocks).Nodup := by
  obtain ⟨blocks, _, rfl⟩ := New_ok_inv hnew
  simp only at hlen hnd hfresh
  have hany : ∀ sched s,
      run (Sys.init { lifeDone := false, wg := true, size := 32, blocks := blocks }) sched =
        .ok s → s.handed.length = k →
      s.handed = blocks.take k ∧ (∀ b ∈ s.handed, b ∈ blocks) ∧ (lbas s.handed).Nodup := by
    intro sched s hrun hk2
    have ht := run_handed_take _ sched s hrun (by simp only [hk2, hlen]; exact hk)
    rw [hk2] at ht
    refine ⟨ht, ?_, ?_⟩
    · intro b hb
      rw [ht] at hb
      exact List.mem_of_mem_take hb
    · rw [ht]
      exact hnd.sublist ((List.take_sublist k blocks).map Block.lba)
  refine ⟨hany, ?_⟩
  have hrun : run (Sys.init { lifeDone := false, wg := true, size := 32, blocks := blocks })
      (List.replicate k (.request true)) =
      .ok { v := { lifeDone := false, wg := true, size := 32, blocks := blocks.drop k }
            handed := blocks.take k
            issued := blocks
            allocCalls := [] } :=
    run_serves k (Sys.init { lifeDone := false, wg := true, size := 32, blocks := blocks }) rfl
      (by simp [Sys.init, hlen, hk])
  have hlt : ((List.drop k blocks).length : Int) < 32 := by
    simp only [List.length_drop, hlen]
    omega
  have hn : (32 : Int) - ((List.drop k blocks).length : Nat) = (k : Int) := by
    simp only [List.length_drop, hlen]
    omega
  refine ⟨_, hrun, rfl, ?_, ?_, ?_, rfl, ?_, rfl, ?_, ?_, ?_⟩
  · simp [hlen, hk]
  · intro b hb
    exact List.mem_of_mem_take hb
  · exact hnd.sublist ((List.take_sublist k blocks).map Block.lba)
  · simp [hlen]
  · intro ev s2 hs
    rcases step_ok_cases hs with ⟨hc, _⟩ | ⟨_, hd, _⟩ | ⟨_, _, e, hc, _⟩ |
      ⟨_, _, cs, hc, _⟩ | ⟨_, _, _, hc, _⟩
    · exact Or.inl hc
    · simp at hd
    · exact Or.inr (Or.inr ⟨_, hc⟩)
    · exact Or.inr (Or.inr ⟨_, hc⟩)
    · exact Or.inr (Or.inl hc)
  · intro r
    cases r with
    | error e =>
      rw [step_alloc_error, if_pos ⟨rfl, hlt⟩]
      exact ⟨_, rfl, by simp only [Sys.refillFailed, hn, List.nil_append]⟩
    | ok cs =>
      rw [step_alloc_ok, if_pos ⟨rfl, hlt⟩]
      exact ⟨_, rfl, by simp only [Sys.refilled, hn, List.nil_append]⟩
  · rw [step_alloc_ok, if_pos ⟨rfl, hlt⟩]
    refine ⟨_, rfl, rfl, ?_, ?_⟩
    · simp only [Sys.refilled, List.length_append, List.length_drop, hlen, hbs]
      omega
    · simp only [Sys.refilled, lbas, List.map_append]
      refine List.Nodup.append ?_ hbsnd ?_
      · exact hnd.sublist ((List.drop_sublist k blocks).map Block.lba)
      · intro a ha hb
        exact hfresh a hb (((List.drop_sublist k blocks).map Block.lba).subset ha)

/-- Witness of C9 as amended, at `k = 5` with new blocks at addresses
`100 .. 104`: also under the schedule `interleavedSched` the five blocks
handed out are the first five. -/
theorem sequential_gets_witness :
    (∃ s, run (Sys.init v32) interleavedSched = .ok s ∧ lbas s.handed = [0, 1, 2, 3, 4]) ∧
    ∃ s1, run (Sys.init v32) (List.replicate 5 (.request true)) = .ok s1 ∧
      lbas s1.handed = [0, 1, 2, 3, 4] ∧ s1.v.blocks.length = 27 ∧
      ∃ s2, step s1 (.alloc (.ok (mkBlocks 100 5))) = .ok s2 ∧
        s2.allocCalls = [5] ∧ s2.v.blocks = mkBlocks 5 27 ++ mkBlocks 100 5 ∧
        s2.v.blocks.length = 32 ∧ (lbas s2.v.blocks).Nodup := by
  obtain ⟨hany, s1, h1, h2, _, _, _, h6, h7, _, _, h9, s2, h10, h11, h12, h13⟩ :=
    sequential_gets okBackend v32 5 (mkBlocks 100 5) rfl rfl (by decide) (by decide)
      (by decide) rfl (by decide) (by decide)
  refine ⟨⟨_, rfl, ?_⟩, s1, h1, ?_, ?_, s2, h10, ?_, ?_, h12, h13⟩
  · rw [(hany interleavedSched _ rfl rfl).1]
    rfl
  · rw [h2]; rfl
  · rw [h7]
  · obtain ⟨s3, h14, h15⟩ := h9 (.ok (mkBlocks 100 5))
    rw [h10] at h14
    cases h14
    exact h15
  · rw [h11]; rfl

/-- C9 as stated fails in three ways.  At `k = 0`: after no serve the pool
still holds the 32 blocks of `New` and the refill case cannot be selected,
so no `AllocBlocks(0)` is issued.  At `k = 5` under `interleavedSched`, with
a backend that returns exactly the fresh blocks asked for: five blocks have
been handed out, yet the pool holds 30 blocks, not 27, the loop has issued
two requests, for 2 and for 1 block, and its next request is for 2 blocks,
never one request for 5.  At `k = 5` with five serves in a row: when
`AllocBlocks(5)` fails the pool stays at 27 blocks and the loop has
returned. -/
theorem sequential_gets_counterexample :
    (run (Sys.init v32) (List.replicate 0 (.request true)) = .ok (Sys.init v32) ∧
      (Sys.init v32).v.blocks.length = 32 ∧
      (∀ r, step (Sys.init v32) (.alloc r) = .disabled)) ∧
    (allocsExact (Sys.init v32) interleavedSched = true ∧
      allocsFresh (Sys.init v32) interleavedSched = true ∧
      ∃ s, run (Sys.init v32) interleavedSched = .ok s ∧
        lbas s.handed = [0, 1, 2, 3, 4] ∧ s.v.blocks.length = 30 ∧
        s.allocCalls = [2, 1] ∧
        ∃ s2, step s (.alloc (.ok (mkBlocks 103 2))) = .ok s2 ∧ s2.allocCalls = [2, 1, 2]) ∧
    (∃ s1 s2, run (Sys.init v32) (List.replicate 5 (.request true)) = .ok s1 ∧
      step s1 (.alloc (.error { code := 1 })) = .ok s2 ∧ s2.allocCalls = [5] ∧
      s2.v.blocks.length = 27 ∧ s2.v.wg = false) := by
  refine ⟨⟨rfl, rfl, ?_⟩, ⟨by decide, by decide, _, rfl, rfl, rfl, rfl, _, rfl, rfl⟩,
    ⟨_, _, rfl, rfl, rfl, rfl, rfl⟩⟩
  intro r
  cases r with
  | error e => rw [step_alloc_error]; rfl
  | ok bs => rw [step_alloc_ok]; rfl

end Prealloc
